import Mathlib

/-!
# Verification of the trust-propagation core

Shallow embedding of the repository's core (`src/Final Project/src/main.rs`):
the record-to-graph builder `construct_graph` and the modified Dijkstra
traversal `modified_dijkstra`.  Floating-point costs (`f64`) are modelled by
`WithTop ℚ`: exact rationals plus `⊤` standing for `f64::INFINITY` (which the
code produces as the `or_insert` sentinel and as `1.0 / 0.0` when a rating is
`-11`).  Hash maps are modelled by association lists (first-match lookup,
replace-or-append update), and the binary heap by a list with a
pop-the-minimum operation; the Rust `Ord` on `State` compares costs only, with
ties between equal-cost entries broken arbitrarily, so any deterministic
minimum-extraction is a faithful refinement.  The heap-driven `while` loop is
modelled with explicit fuel, returning `none` when the fuel is exhausted
before the heap empties; termination is then a theorem, not an assumption.
-/

/-- Costs: `f64` values arising in the program, idealized as exact rationals
with `⊤` for positive infinity. -/
abbrev Cost := WithTop ℚ

/-- One parsed observation (struct `Record` in main.rs): source actor, target
actor, integer rating, timestamp. -/
structure Record where
  source : Int
  target : Int
  rating : Int
  time : Int
deriving DecidableEq, Repr

/-- A directed edge (struct `Edge` in main.rs). -/
structure Edge where
  target : Int
  trust_score : Int
deriving DecidableEq, Repr

/-- First-match lookup in an association list (models `HashMap::get`). -/
def lookupA {α : Type} : List (Int × α) → Int → Option α
  | [], _ => none
  | (k, v) :: t, key => if k = key then some v else lookupA t key

/-- Replace-first-or-append update (models `HashMap::insert`). -/
def updateA {α : Type} : List (Int × α) → Int → α → List (Int × α)
  | [], key, val => [(key, val)]
  | (k, v) :: t, key, val =>
    if k = key then (k, val) :: t else (k, v) :: updateA t key val

/-- Append an edge to a source's vector, creating the entry when absent
(models `self.nodes.entry(source).or_insert_with(Vec::new).push(edge)`). -/
def pushEdge : List (Int × List Edge) → Int → Edge → List (Int × List Edge)
  | [], source, e => [(source, [e])]
  | (k, es) :: t, source, e =>
    if k = source then (k, es ++ [e]) :: t else (k, es) :: pushEdge t source e

/-- The adjacency-list graph (struct `Graph` in main.rs). -/
structure Graph where
  nodes : List (Int × List Edge)
deriving DecidableEq, Repr

/-- `Graph::new`. -/
def Graph.new : Graph := ⟨[]⟩

/-- `Graph::add_edge`. -/
def Graph.add_edge (g : Graph) (source target trust_score : Int) : Graph :=
  ⟨pushEdge g.nodes source ⟨target, trust_score⟩⟩

/-- The outgoing-edge list of an actor: `graph.nodes.get(&v)`, with a missing
entry read as no edges (the code skips the neighbour loop in that case). -/
def edgesOf (g : Graph) (v : Int) : List Edge :=
  (lookupA g.nodes v).getD []

/-- Total number of outgoing edges summed over all sources. -/
def totalEdges (g : Graph) : Nat :=
  (g.nodes.map (fun p => p.2.length)).sum

/-- The generation's record-count selector (the `match generation` expression
inside `construct_graph`). -/
def endIndexFor (generation len : Nat) : Nat :=
  match generation with
  | 1 => len / 3
  | 2 => len * 2 / 3
  | _ => len

/-- `construct_graph` from main.rs: select the generation's prefix of the
record stream, build the graph, and report the last included timestamp. -/
def construct_graph (records : List Record) (generation : Nat) : Graph × Int :=
  if records = [] then (Graph.new, 0) else
  let len := records.length
  let end_index := endIndexFor generation len
  let end_index := min end_index len
  let filtered_records := records.take end_index
  let graph := filtered_records.foldl
    (fun g r => g.add_edge r.source r.target r.rating) Graph.new
  let last_transac :=
    match filtered_records.getLast? with
    | some r => r.time
    | none => 0
  (graph, last_transac)

/-- The transformed weight of an edge with rating `r`:
`1.0 / (r + 11) as f64`, with the division by zero at `r = -11` giving
`f64::INFINITY`, modelled as `⊤`. -/
def edgeCost (r : Int) : Cost :=
  if r + 11 = 0 then ⊤ else ((1 / ((r : ℚ) + 11) : ℚ) : Cost)

/-- A priority entry (struct `State` in main.rs). -/
structure State where
  cost : Cost
  position : Int
  node_count : Int
deriving DecidableEq, Repr

/-- The traversal state: the `dist` map from actor to
`(best cost, node count)` and the pending heap entries. -/
structure DijkstraState where
  dist : List (Int × (Cost × Int))
  heap : List State
deriving DecidableEq, Repr

/-- Extract a minimum-cost entry from the heap (Rust's `BinaryHeap::pop`
under the reversed `Ord` on `State`, which compares costs only; equal-cost
entries are unordered, so extracting the earliest minimum is one faithful
resolution of the arbitrary tie-break). -/
def popMin : List State → Option (State × List State)
  | [] => none
  | e :: es =>
    match popMin es with
    | none => some (e, [])
    | some (m, r) => if e.cost ≤ m.cost then some (e, es) else some (m, e :: r)

/-- Relax one outgoing edge of the popped entry (the body of the
`for edge in edges` loop): compute the candidate cost and hop count, read the
recorded state with `or_insert((f64::INFINITY, 0))`, and when the recorded
cost is strictly greater, overwrite the pair and push a new heap entry. -/
def relaxOne (cost : Cost) (node_count : Int)
    (acc : List (Int × (Cost × Int)) × List State) (edge : Edge) :
    List (Int × (Cost × Int)) × List State :=
  let next_cost := cost + edgeCost edge.trust_score
  let next_position := edge.target
  let next_node_count := node_count + 1
  let d0 := (lookupA acc.1 next_position).getD (⊤, 0)
  if d0.1 > next_cost then
    (updateA acc.1 next_position (next_cost, next_node_count),
      ⟨next_cost, next_position, next_node_count⟩ :: acc.2)
  else
    (updateA acc.1 next_position d0, acc.2)

/-- One iteration of the `while let Some(State {..}) = heap.pop()` body:
skip the popped entry when it is stale, otherwise relax every outgoing edge. -/
def dijkstraBody (g : Graph) (e : State) (rest : List State)
    (dist : List (Int × (Cost × Int))) : DijkstraState :=
  let expand :=
    let res := (edgesOf g e.position).foldl (relaxOne e.cost e.node_count) (dist, rest)
    DijkstraState.mk res.1 res.2
  match lookupA dist e.position with
  | some d => if e.cost > d.1 then ⟨dist, rest⟩ else expand
  | none => expand

/-- The heap-driven loop, with explicit fuel; `none` means the fuel ran out
before the heap emptied. -/
def dijkstraLoop (g : Graph) : Nat → DijkstraState → Option DijkstraState
  | 0, s => if s.heap = [] then some s else none
  | Nat.succ n, s =>
    match popMin s.heap with
    | none => some s
    | some (e, rest) => dijkstraLoop g n (dijkstraBody g e rest s.dist)

/-- The initial traversal state: the start actor recorded at `(0.0, 1)` and
seeded in the heap. -/
def dijkstraStart (start_node : Int) : DijkstraState :=
  ⟨[(start_node, ((0 : Cost), 1))], [⟨(0 : Cost), start_node, 1⟩]⟩

/-- The post-pass: keep the recorded states with positive node count and emit
`total_cost / count` for each. -/
def averageScores (dist : List (Int × (Cost × Int))) : List (Int × Cost) :=
  (dist.filter (fun p => 0 < p.2.2)).map
    (fun p => (p.1, WithTop.map (fun q => q / ((p.2.2 : ℚ))) p.2.1))

/-- `modified_dijkstra` from main.rs, run with enough fuel for any graph with
nonnegative edge costs (at most one push per edge plus the seed entry, hence
at most `totalEdges g + 1` iterations). -/
def modified_dijkstra (g : Graph) (start_node : Int) : Option (List (Int × Cost)) :=
  (dijkstraLoop g (totalEdges g + 2) (dijkstraStart start_node)).map
    (fun s => averageScores s.dist)

/-- The test graph from `create_test_graph` in main.rs. -/
def create_test_graph : Graph :=
  ((((Graph.new).add_edge 0 1 5).add_edge 0 2 10).add_edge 1 2 2).add_edge 2 0 1

/-- The recorded cost of an actor, `⊤` when no state is recorded. -/
def distCost (dist : List (Int × (Cost × Int))) (v : Int) : Cost :=
  match lookupA dist v with
  | some p => p.1
  | none => ⊤

/-- A walk from `s` in the graph with its accumulated transformed cost. -/
inductive WalkCost (g : Graph) (s : Int) : Int → Cost → Prop
  | refl : WalkCost g s s 0
  | step {u : Int} {c : Cost} (e : Edge) :
      WalkCost g s u c → e ∈ edgesOf g u →
      WalkCost g s e.target (c + edgeCost e.trust_score)

/-- An actor is stable when none of its outgoing edges can improve its
target's recorded cost. -/
def Stable (g : Graph) (dist : List (Int × (Cost × Int))) (v : Int) : Prop :=
  ∀ e ∈ edgesOf g v, distCost dist e.target ≤ distCost dist v + edgeCost e.trust_score

/-- The stability invariant of a propagation run from `start_node`: every
actor is either stable (none of its outgoing edges improves its target) or
has a pending heap entry at its currently recorded cost; heap entries carry
realizable walk costs and positive node counts; recorded states with nonzero
node count carry realizable walk costs; and the start actor's recorded state
is present with nonpositive cost and node count at least 1. -/
def StabInv (g : Graph) (start_node : Int) (s : DijkstraState) : Prop :=
  (∀ v, Stable g s.dist v ∨
      ∃ e ∈ s.heap, e.position = v ∧ e.cost ≤ distCost s.dist v) ∧
    (∀ e ∈ s.heap, WalkCost g start_node e.position e.cost) ∧
    (∀ v c k, lookupA s.dist v = some (c, k) → k ≠ 0 → WalkCost g start_node v c) ∧
    (∀ e ∈ s.heap, 1 ≤ e.node_count) ∧
    (∃ c k, lookupA s.dist start_node = some (c, k) ∧ c ≤ 0 ∧ 1 ≤ k)

/-- The key set of the adjacency list (actors with an outgoing-edge entry). -/
def graphKeys (g : Graph) : Finset Int := (g.nodes.map Prod.fst).toFinset

/-- The termination invariant, with ghost state: `S` is the set of settled
actors (processed non-stale at their final cost) and `b` a lower bound on
every pending heap cost.  Settled actors hold a recorded cost at most `b`
and none of their outgoing edges can improve its target. -/
def TermInv (g : Graph) (S : Finset Int) (b : Cost) (s : DijkstraState) : Prop :=
  (∀ e ∈ s.heap, b ≤ e.cost) ∧
    (∀ e ∈ s.heap, ∃ c k, lookupA s.dist e.position = some (c, k) ∧ c ≤ e.cost) ∧
    (∀ v ∈ S, ∃ c k, lookupA s.dist v = some (c, k) ∧ c ≤ b ∧
      ∀ ed ∈ edgesOf g v, ∃ c' k', lookupA s.dist ed.target = some (c', k') ∧
        c' ≤ c + edgeCost ed.trust_score)

/-- The termination measure: pending heap entries plus the out-degrees of the
not-yet-settled keyed actors.  Each loop iteration strictly decreases it. -/
def dijkstraMeasure (g : Graph) (S : Finset Int) (s : DijkstraState) : Nat :=
  s.heap.length + ∑ v in graphKeys g \ S, (edgesOf g v).length

/-- The record-count cutoff as the specification states it: `floor(len/3)`,
`floor(2*len/3)`, or `len` for generations 1, 2, 3, clamped to `len`. -/
def genCutoff (generation len : Nat) : Nat :=
  min (if generation = 1 then len / 3 else if generation = 2 then len * 2 / 3 else len) len

/-- A single-record input, exercising the empty generation-1 slice. -/
def oneRecord : List Record := [⟨1, 2, 3, 100⟩]

/-- The two-record input from `test_graph_construction` in main.rs. -/
def twoRecords : List Record := [⟨1, 2, 3, 100⟩, ⟨2, 3, 4, 200⟩]

/-- A graph with a single self-loop of rating `-12`: its transformed edge
cost is `1/(-12+11) = -1`, a strictly negative weight. -/
def negLoopGraph : Graph := ⟨[(0, [⟨0, -12⟩])]⟩

/-- A graph with a single edge of rating `-11`: its transformed edge cost is
`1.0 / 0.0 = ∞`. -/
def ratingElevenGraph : Graph := ⟨[(0, [⟨1, -11⟩])]⟩

/-- `DistLe d' d`: every actor recorded in `d` is still recorded in `d'`,
either with a strictly smaller cost or with the identical `(cost, hops)`
pair.  This is the update discipline of the `dist` map: entries are never
deleted, the pair is written atomically, and a write happens only when the
cost strictly decreases. -/
def DistLe (d' d : List (Int × (Cost × Int))) : Prop :=
  ∀ v c k, lookupA d v = some (c, k) →
    ∃ c' k', lookupA d' v = some (c', k') ∧ (c' < c ∨ (c' = c ∧ k' = k))

/-!
## Helper lemmas on costs
-/

theorem costCoeAdd (a b : ℚ) : ((a : Cost) + (b : Cost)) = (((a + b : ℚ)) : Cost) := by
  exact_mod_cast rfl

theorem costCoeLt (a b : ℚ) : ((a : Cost) < (b : Cost)) ↔ a < b := WithTop.coe_lt_coe

theorem costCoeLe (a b : ℚ) : ((a : Cost) ≤ (b : Cost)) ↔ a ≤ b := WithTop.coe_le_coe

theorem costCoeLtZero (a : ℚ) : ((a : Cost) < 0) ↔ a < 0 := by
  rw [show ((0 : Cost)) = ((0 : ℚ) : Cost) from rfl, WithTop.coe_lt_coe]

theorem costZeroLtCoe (a : ℚ) : ((0 : Cost) < (a : Cost)) ↔ 0 < a := by
  rw [show ((0 : Cost)) = ((0 : ℚ) : Cost) from rfl, WithTop.coe_lt_coe]

theorem costCoeLtTop (a : ℚ) : ((a : Cost) < ⊤) := WithTop.coe_lt_top a

theorem costTopNotLtCoe (a : Cost) : ¬ (⊤ < a) := not_top_lt

theorem costZeroAdd (a : Cost) : (0 : Cost) + a = a := zero_add a

/-!
## Graph construction lemmas
-/

theorem pushEdge_count (l : List (Int × List Edge)) (s : Int) (e : Edge) :
    ((pushEdge l s e).map (fun p => p.2.length)).sum
      = (l.map (fun p => p.2.length)).sum + 1 := by
  induction l with
  | nil => simp [pushEdge]
  | cons hd t ih =>
    obtain ⟨k, es⟩ := hd
    by_cases hk : k = s
    · simp [pushEdge, hk]
      omega
    · simp [pushEdge, hk, ih]
      omega

theorem totalEdges_add_edge (g : Graph) (s t r : Int) :
    totalEdges (g.add_edge s t r) = totalEdges g + 1 := by
  simpa [totalEdges, Graph.add_edge] using pushEdge_count g.nodes s ⟨t, r⟩

theorem totalEdges_fold (records : List Record) (g0 : Graph) :
    totalEdges (records.foldl (fun g r => g.add_edge r.source r.target r.rating) g0)
      = totalEdges g0 + records.length := by
  induction records generalizing g0 with
  | nil => simp
  | cons r rs ih =>
    simp [List.foldl_cons, ih, totalEdges_add_edge]
    omega

/-!
## Claims about `construct_graph`
-/

/-- C8: for every generation value, `construct_graph` applied to the empty
record sequence returns the empty graph and last_time 0. -/
theorem construct_graph_empty (generation : Nat) :
    construct_graph [] generation = (Graph.new, 0) := rfl

/-- C9: for every generation value other than 1 and 2 (0, 3, 4, and larger),
`construct_graph` behaves exactly as generation 3: it includes every record.
The function is total over all generation values. -/
theorem construct_graph_other_generations (records : List Record) (generation : Nat)
    (h1 : generation ≠ 1) (h2 : generation ≠ 2) :
    construct_graph records generation = construct_graph records 3 := by
  match generation, h1, h2 with
  | 0, _, _ => rfl
  | 1, h1, _ => exact absurd rfl h1
  | 2, _, h2 => exact absurd rfl h2
  | (n + 3), _, _ => rfl

/-- Witness for C9 at a concrete input. -/
theorem construct_graph_other_generations_witness :
    construct_graph twoRecords 5 = construct_graph twoRecords 3 :=
  construct_graph_other_generations twoRecords 5 (by decide) (by decide)

/-- C2 counterexample: for the non-empty single-record input and generation 1
the selected prefix is empty, so there is no "final record of the prefix"
whose time the returned last_time could equal (the code returns the sentinel
0 instead). -/
theorem construct_graph_last_time_counterexample :
    ¬ ∃ rec : Record,
      (oneRecord.take (genCutoff 1 oneRecord.length)).getLast? = some rec ∧
        (construct_graph oneRecord 1).2 = rec.time := by
  rintro ⟨rec, h, -⟩
  simp [oneRecord, genCutoff] at h

/-- C2 (amended): for every non-empty record sequence and generation in
{1,2,3}, `construct_graph` selects the prefix of length `floor(len/3)`,
`floor(2*len/3)`, or `len` respectively (clamped to `len`); the total number
of outgoing edges of the resulting graph equals the length of that prefix;
and the returned last_time equals the time of the prefix's final record when
the prefix is non-empty, and the sentinel 0 when the prefix is empty. -/
theorem construct_graph_spec (records : List Record) (generation : Nat)
    (hne : records ≠ []) (hgen : generation = 1 ∨ generation = 2 ∨ generation = 3) :
    totalEdges (construct_graph records generation).1
        = (records.take (genCutoff generation records.length)).length ∧
      (∀ rec : Record,
        (records.take (genCutoff generation records.length)).getLast? = some rec →
          (construct_graph records generation).2 = rec.time) ∧
      ((records.take (genCutoff generation records.length)).getLast? = none →
        (construct_graph records generation).2 = 0) := by
  have hcut : genCutoff generation records.length
      = min (endIndexFor generation records.length) records.length := by
    rcases hgen with h | h | h <;> subst h <;> simp [genCutoff, endIndexFor]
  rw [hcut]
  refine ⟨?_, ?_, ?_⟩
  · simp only [construct_graph, if_neg hne]
    rw [totalEdges_fold]
    simp [totalEdges, Graph.new]
  · intro rec h
    simp only [construct_graph, if_neg hne]
    rw [h]
  · intro h
    simp only [construct_graph, if_neg hne]
    rw [h]

/-- Witness for C2 at the concrete two-record, generation-3 input. -/
theorem construct_graph_spec_witness :
    totalEdges (construct_graph twoRecords 3).1
        = (twoRecords.take (genCutoff 3 twoRecords.length)).length ∧
      (∀ rec : Record,
        (twoRecords.take (genCutoff 3 twoRecords.length)).getLast? = some rec →
          (construct_graph twoRecords 3).2 = rec.time) ∧
      ((twoRecords.take (genCutoff 3 twoRecords.length)).getLast? = none →
        (construct_graph twoRecords 3).2 = 0) :=
  construct_graph_spec twoRecords 3 (by decide) (Or.inr (Or.inr rfl))

/-!
## The concrete propagation scenario
-/

/-- C1: on the test graph with edges 0→1 (rating 5), 0→2 (rating 10),
1→2 (rating 2), 2→0 (rating 1), propagation from actor 0 returns exactly
the mapping 0 ↦ 0, 1 ↦ (1/16)/2 = 1/32 = 0.03125, 2 ↦ (1/21)/2 = 1/42
(the direct edge to 2, of total cost 1/21, beats the two-hop route through
1 of total cost 1/16 + 1/13). -/
theorem modified_dijkstra_test_graph :
    modified_dijkstra create_test_graph 0 =
      some [(0, (0 : Cost)), (1, ((1/32 : ℚ) : Cost)), (2, ((1/42 : ℚ) : Cost))] := by
  norm_num [modified_dijkstra, dijkstraLoop, dijkstraBody, dijkstraStart, relaxOne,
    popMin, edgesOf, lookupA, updateA, edgeCost, totalEdges, create_test_graph,
    Graph.add_edge, Graph.new, pushEdge, averageScores, costCoeAdd, costCoeLt,
    costCoeLtZero, costZeroLtCoe, costCoeLtTop, costTopNotLtCoe, costZeroAdd]

/-!
## Association list lemmas
-/

theorem lookupA_updateA_self {α : Type} (l : List (Int × α)) (k : Int) (v : α) :
    lookupA (updateA l k v) k = some v := by
  induction l with
  | nil => simp [lookupA, updateA]
  | cons hd t ih =>
    obtain ⟨k', v'⟩ := hd
    by_cases hk : k' = k
    · simp [lookupA, updateA, hk]
    · simp [lookupA, updateA, hk, ih]

theorem lookupA_updateA_ne {α : Type} (l : List (Int × α)) (k w : Int) (v : α)
    (h : w ≠ k) : lookupA (updateA l k v) w = lookupA l w := by
  have hkw : ¬ (k = w) := fun hk => h hk.symm
  induction l with
  | nil => simp [lookupA, updateA, hkw]
  | cons hd t ih =>
    obtain ⟨k', v'⟩ := hd
    by_cases hk : k' = k
    · subst hk
      simp [lookupA, updateA, hkw]
    · simp [lookupA, updateA, hk, ih]

theorem updateA_lookup_eq {α : Type} (l : List (Int × α)) (k : Int) (v : α)
    (h : lookupA l k = some v) : updateA l k v = l := by
  induction l with
  | nil => simp [lookupA] at h
  | cons hd t ih =>
    obtain ⟨k', v'⟩ := hd
    by_cases hk : k' = k
    · subst hk
      simp [lookupA] at h
      simp [updateA, h]
    · simp [lookupA, hk] at h
      simp [updateA, hk, ih h]

theorem lookupA_mem {α : Type} (l : List (Int × α)) (k : Int) (v : α)
    (h : lookupA l k = some v) : (k, v) ∈ l := by
  induction l with
  | nil => simp [lookupA] at h
  | cons hd t ih =>
    obtain ⟨k', v'⟩ := hd
    by_cases hk : k' = k
    · subst hk
      simp [lookupA] at h
      simp [h]
    · simp [lookupA, hk] at h
      simp [ih h]

/-!
## Heap extraction lemmas
-/

theorem popMin_eq_none (l : List State) : popMin l = none ↔ l = [] := by
  cases l with
  | nil => simp [popMin]
  | cons e es =>
    simp only [popMin]
    cases h : popMin es with
    | none => simp
    | some p =>
      obtain ⟨m, r⟩ := p
      by_cases hc : e.cost ≤ m.cost <;> simp [hc]

theorem popMin_min (l : List State) (e : State) (r : List State)
    (h : popMin l = some (e, r)) : ∀ x ∈ l, e.cost ≤ x.cost := by
  induction l generalizing e r with
  | nil => simp [popMin] at h
  | cons a es ih =>
    simp only [popMin] at h
    cases hp : popMin es with
    | none =>
      simp only [hp] at h
      cases h
      obtain rfl : es = [] := (popMin_eq_none es).mp hp
      intro x hx
      simp at hx
      subst hx
      exact le_refl _
    | some p =>
      obtain ⟨m, r'⟩ := p
      simp only [hp] at h
      by_cases hc : a.cost ≤ m.cost
      · rw [if_pos hc] at h
        cases h
        intro x hx
        rcases List.mem_cons.mp hx with rfl | hx
        · exact le_refl _
        · exact le_trans hc (ih _ _ hp x hx)
      · rw [if_neg hc] at h
        cases h
        intro x hx
        rcases List.mem_cons.mp hx with rfl | hx
        · exact le_of_not_le hc
        · exact ih _ _ hp x hx

theorem popMin_mem (l : List State) (e : State) (r : List State)
    (h : popMin l = some (e, r)) : e ∈ l ∧ ∀ x ∈ r, x ∈ l := by
  induction l generalizing e r with
  | nil => simp [popMin] at h
  | cons a es ih =>
    simp only [popMin] at h
    cases hp : popMin es with
    | none =>
      simp only [hp] at h
      cases h
      simp
    | some p =>
      obtain ⟨m, r'⟩ := p
      simp only [hp] at h
      by_cases hc : a.cost ≤ m.cost
      · rw [if_pos hc] at h
        cases h
        exact ⟨List.mem_cons_self _ _, fun x hx => List.mem_cons_of_mem _ hx⟩
      · rw [if_neg hc] at h
        cases h
        obtain ⟨hm, hr⟩ := ih _ _ hp
        refine ⟨List.mem_cons_of_mem _ hm, ?_⟩
        intro x hx
        rcases List.mem_cons.mp hx with rfl | hx
        · exact List.mem_cons_self _ _
        · exact List.mem_cons_of_mem _ (hr x hx)

theorem popMin_length (l : List State) (e : State) (r : List State)
    (h : popMin l = some (e, r)) : l.length = r.length + 1 := by
  induction l generalizing e r with
  | nil => simp [popMin] at h
  | cons a es ih =>
    simp only [popMin] at h
    cases hp : popMin es with
    | none =>
      simp only [hp] at h
      cases h
      obtain rfl : es = [] := (popMin_eq_none es).mp hp
      simp
    | some p =>
      obtain ⟨m, r'⟩ := p
      simp only [hp] at h
      by_cases hc : a.cost ≤ m.cost
      · rw [if_pos hc] at h
        cases h
        simp
      · rw [if_neg hc] at h
        cases h
        have hlen := ih _ _ hp
        simp [hlen]

/-!
## Generic loop reasoning
-/

theorem foldl_preserve {α β : Type} (f : β → α → β) (Q : β → Prop)
    (l : List α) (b : β) (hb : Q b) (hf : ∀ a ∈ l, ∀ x, Q x → Q (f x a)) :
    Q (l.foldl f b) := by
  induction l generalizing b with
  | nil => exact hb
  | cons a t ih =>
    exact ih (f b a) (hf a (List.mem_cons_self _ _) b hb)
      (fun x hx y hy => hf x (List.mem_cons_of_mem _ hx) y hy)

theorem dijkstraLoop_inv (g : Graph) (P : DijkstraState → Prop)
    (hstep : ∀ s e rest, P s → popMin s.heap = some (e, rest) →
      P (dijkstraBody g e rest s.dist)) :
    ∀ fuel s r, P s → dijkstraLoop g fuel s = some r → P r := by
  intro fuel
  induction fuel with
  | zero =>
    intro s r hP h
    simp only [dijkstraLoop] at h
    by_cases hh : s.heap = []
    · rw [if_pos hh] at h
      cases h
      exact hP
    · rw [if_neg hh] at h
      cases h
  | succ n ih =>
    intro s r hP h
    simp only [dijkstraLoop] at h
    cases hp : popMin s.heap with
    | none =>
      rw [hp] at h
      cases h
      exact hP
    | some p =>
      obtain ⟨e, rest⟩ := p
      rw [hp] at h
      exact ih _ r (hstep s e rest hP hp) h

theorem dijkstraLoop_heap_empty (g : Graph) :
    ∀ fuel s r, dijkstraLoop g fuel s = some r → r.heap = [] := by
  intro fuel
  induction fuel with
  | zero =>
    intro s r h
    simp only [dijkstraLoop] at h
    by_cases hh : s.heap = []
    · rw [if_pos hh] at h
      cases h
      exact hh
    · rw [if_neg hh] at h
      cases h
  | succ n ih =>
    intro s r h
    simp only [dijkstraLoop] at h
    cases hp : popMin s.heap with
    | none =>
      rw [hp] at h
      cases h
      exact (popMin_eq_none _).mp hp
    | some p =>
      obtain ⟨e, rest⟩ := p
      rw [hp] at h
      exact ih _ r h

theorem dijkstraLoop_of_empty (g : Graph) (fuel : Nat) (s : DijkstraState)
    (h : s.heap = []) : dijkstraLoop g fuel s = some s := by
  cases fuel with
  | zero => simp [dijkstraLoop, h]
  | succ n => simp [dijkstraLoop, h, popMin]

theorem dijkstraLoop_fuel_mono (g : Graph) :
    ∀ fuel s r, dijkstraLoop g fuel s = some r → dijkstraLoop g (fuel + 1) s = some r := by
  intro fuel
  induction fuel with
  | zero =>
    intro s r h
    simp only [dijkstraLoop] at h
    by_cases hh : s.heap = []
    · rw [if_pos hh] at h
      cases h
      exact dijkstraLoop_of_empty g 1 s hh
    · rw [if_neg hh] at h
      cases h
  | succ n ih =>
    intro s r h
    simp only [dijkstraLoop] at h ⊢
    cases hp : popMin s.heap with
    | none =>
      rw [hp] at h
      exact h
    | some p =>
      obtain ⟨e, rest⟩ := p
      rw [hp] at h
      exact ih _ r h

/-!
## The dist-map update discipline
-/

theorem DistLe_refl (d : List (Int × (Cost × Int))) : DistLe d d :=
  fun _ c k h => ⟨c, k, h, Or.inr ⟨rfl, rfl⟩⟩

theorem DistLe_trans {a b c : List (Int × (Cost × Int))}
    (hab : DistLe a b) (hbc : DistLe b c) : DistLe a c := by
  intro v x y h
  obtain ⟨x', y', hb, hrel⟩ := hbc v x y h
  obtain ⟨x'', y'', ha, hrel'⟩ := hab v x' y' hb
  refine ⟨x'', y'', ha, ?_⟩
  rcases hrel with h1 | ⟨rfl, rfl⟩
  · rcases hrel' with h2 | ⟨rfl, rfl⟩
    · exact Or.inl (lt_trans h2 h1)
    · exact Or.inl h1
  · exact hrel'

theorem relaxOne_distLe (cost : Cost) (node_count : Int)
    (acc : List (Int × (Cost × Int)) × List State) (edge : Edge) :
    DistLe (relaxOne cost node_count acc edge).1 acc.1 := by
  intro v c k hv
  simp only [relaxOne]
  by_cases hvt : v = edge.target
  · subst hvt
    rw [hv]
    simp only [Option.getD_some]
    by_cases hlt : (c, k).1 > cost + edgeCost edge.trust_score
    · rw [if_pos hlt]
      exact ⟨_, _, lookupA_updateA_self _ _ _, Or.inl hlt⟩
    · rw [if_neg hlt]
      rw [updateA_lookup_eq _ _ _ hv]
      exact ⟨c, k, hv, Or.inr ⟨rfl, rfl⟩⟩
  · have hne : v ≠ edge.target := hvt
    by_cases hlt : ((lookupA acc.1 edge.target).getD (⊤, 0)).1 > cost + edgeCost edge.trust_score
    · rw [if_pos hlt]
      rw [lookupA_updateA_ne _ _ _ _ hne]
      exact ⟨c, k, hv, Or.inr ⟨rfl, rfl⟩⟩
    · rw [if_neg hlt]
      rw [lookupA_updateA_ne _ _ _ _ hne]
      exact ⟨c, k, hv, Or.inr ⟨rfl, rfl⟩⟩

theorem dijkstraBody_distLe (g : Graph) (e : State) (rest : List State)
    (dist : List (Int × (Cost × Int))) :
    DistLe (dijkstraBody g e rest dist).dist dist := by
  have hexpand : ∀ res : List (Int × (Cost × Int)) × List State,
      res = (edgesOf g e.position).foldl (relaxOne e.cost e.node_count) (dist, rest) →
      DistLe res.1 dist := by
    intro res hres
    subst hres
    exact foldl_preserve (relaxOne e.cost e.node_count)
      (fun acc => DistLe acc.1 dist) _ (dist, rest) (DistLe_refl dist)
      (fun a _ x hx => DistLe_trans (relaxOne_distLe e.cost e.node_count x a) hx)
  cases hl : lookupA dist e.position with
  | none =>
    simp only [dijkstraBody, hl]
    exact hexpand _ rfl
  | some d =>
    simp only [dijkstraBody, hl]
    by_cases hc : e.cost > d.1
    · rw [if_pos hc]
      exact DistLe_refl dist
    · rw [if_neg hc]
      exact hexpand _ rfl

/-- C3: the traversal-state update discipline.  First part: across one
iteration of the loop body, every actor's recorded `(cost, hop_count)` pair
is either left entirely unchanged or overwritten as one pair with a strictly
smaller cost — an equal-cost alternative never replaces the recorded state.
Second part: consequently, over any terminating run of the loop, each
recorded cost is non-increasing, and a recorded state that changed at all
changed to a strictly smaller cost. -/
theorem dijkstra_update_discipline (g : Graph) :
    (∀ (e : State) (rest : List State) (dist : List (Int × (Cost × Int)))
      (v : Int) (c : Cost) (k : Int), lookupA dist v = some (c, k) →
      ∃ c' k', lookupA (dijkstraBody g e rest dist).dist v = some (c', k') ∧
        (c' < c ∨ (c' = c ∧ k' = k))) ∧
    (∀ (fuel : Nat) (s r : DijkstraState), dijkstraLoop g fuel s = some r →
      ∀ (v : Int) (c : Cost) (k : Int), lookupA s.dist v = some (c, k) →
      ∃ c' k', lookupA r.dist v = some (c', k') ∧ (c' < c ∨ (c' = c ∧ k' = k))) := by
  constructor
  · intro e rest dist v c k hv
    exact dijkstraBody_distLe g e rest dist v c k hv
  · intro fuel s r hrun
    exact dijkstraLoop_inv g (fun s' => DistLe s'.dist s.dist)
      (fun s' e rest hP hp => DistLe_trans (dijkstraBody_distLe g e rest s'.dist) hP)
      fuel s r (DistLe_refl s.dist) hrun

/-- Witness for C3: the start actor's `(0, 1)` state on the empty graph is
preserved through a terminating run. -/
theorem dijkstra_update_discipline_witness :
    ∃ c' k', lookupA (DijkstraState.mk [((0 : Int), ((0 : Cost), (1 : Int)))] []).dist 0
        = some (c', k') ∧ (c' < (0 : Cost) ∨ (c' = (0 : Cost) ∧ k' = (1 : Int))) :=
  (dijkstra_update_discipline Graph.new).2 2 (dijkstraStart 0)
    (DijkstraState.mk [((0 : Int), ((0 : Cost), (1 : Int)))] [])
    (by decide) 0 (0 : Cost) 1 (by decide)

/-!
## Runs from a start actor with no outgoing edges
-/

theorem dijkstraBody_no_edges (g : Graph) (start_node : Int)
    (h : edgesOf g start_node = []) :
    dijkstraBody g ⟨(0 : Cost), start_node, 1⟩ [] [(start_node, ((0 : Cost), 1))]
      = ⟨[(start_node, ((0 : Cost), 1))], []⟩ := by
  simp [dijkstraBody, lookupA, h, lt_irrefl]

/-- C7: for every graph whose start actor has no outgoing edges (including a
start actor absent from the graph's key set), propagation returns exactly the
singleton mapping `{start: 0.0}`. -/
theorem modified_dijkstra_no_edges (g : Graph) (start_node : Int)
    (h : edgesOf g start_node = []) :
    modified_dijkstra g start_node = some [(start_node, (0 : Cost))] := by
  have hpop : popMin [(⟨(0 : Cost), start_node, 1⟩ : State)]
      = some (⟨(0 : Cost), start_node, 1⟩, []) := rfl
  have hrun : dijkstraLoop g (totalEdges g + 2) (dijkstraStart start_node)
      = some ⟨[(start_node, ((0 : Cost), 1))], []⟩ := by
    rw [show totalEdges g + 2 = Nat.succ (totalEdges g + 1) from rfl]
    simp only [dijkstraLoop, dijkstraStart, hpop]
    rw [dijkstraBody_no_edges g start_node h]
    exact dijkstraLoop_of_empty g (totalEdges g + 1)
      ⟨[(start_node, ((0 : Cost), 1))], []⟩ rfl
  rw [modified_dijkstra, hrun]
  simp only [Option.map_some']
  congr 1
  show averageScores [(start_node, ((0 : Cost), 1))] = [(start_node, (0 : Cost))]
  rw [show ((0 : Cost)) = (((0 : ℚ)) : Cost) from rfl]
  simp [averageScores, WithTop.map_coe]

/-- Witness for C7: actor 5 has no outgoing edges in the test graph. -/
theorem modified_dijkstra_no_edges_witness :
    modified_dijkstra create_test_graph 5 = some [(5, (0 : Cost))] :=
  modified_dijkstra_no_edges create_test_graph 5 (by decide)

/-!
## Nonnegativity of scores
-/

theorem mem_updateA {α : Type} (l : List (Int × α)) (k : Int) (val : α) :
    ∀ x ∈ updateA l k val, x = (k, val) ∨ x ∈ l := by
  induction l with
  | nil =>
    intro x hx
    simp [updateA] at hx
    exact Or.inl hx
  | cons hd t ih =>
    obtain ⟨k', v'⟩ := hd
    intro x hx
    by_cases hk : k' = k
    · subst hk
      simp only [updateA, if_pos rfl] at hx
      rcases List.mem_cons.mp hx with rfl | hx
      · exact Or.inl rfl
      · exact Or.inr (List.mem_cons_of_mem _ hx)
    · simp only [updateA, if_neg hk] at hx
      rcases List.mem_cons.mp hx with rfl | hx
      · exact Or.inr (List.mem_cons_self _ _)
      · rcases ih x hx with h | h
        · exact Or.inl h
        · exact Or.inr (List.mem_cons_of_mem _ h)

theorem edgesOf_mem (g : Graph) (v : Int) :
    ∀ ed ∈ edgesOf g v, ∃ es, (v, es) ∈ g.nodes ∧ ed ∈ es := by
  intro ed hed
  unfold edgesOf at hed
  cases hl : lookupA g.nodes v with
  | none => rw [hl] at hed; simp at hed
  | some es =>
    rw [hl] at hed
    exact ⟨es, lookupA_mem _ _ _ hl, hed⟩

theorem edgeCost_pos_of_range (r : Int) (h1 : -10 ≤ r) (h2 : r ≤ 10) :
    (0 : Cost) < edgeCost r := by
  have hne : r + 11 ≠ 0 := by omega
  rw [edgeCost, if_neg hne, costZeroLtCoe]
  have : (0 : ℚ) < (r : ℚ) + 11 := by
    have : (-10 : ℚ) ≤ (r : ℚ) := by exact_mod_cast h1
    linarith
  positivity

theorem dijkstraBody_nonneg (g : Graph)
    (hg : ∀ p ∈ g.nodes, ∀ ed ∈ p.2, (0 : Cost) ≤ edgeCost ed.trust_score)
    (e : State) (rest : List State) (dist : List (Int × (Cost × Int)))
    (he : (0 : Cost) ≤ e.cost)
    (hheap : ∀ x ∈ rest, (0 : Cost) ≤ x.cost)
    (hdist : ∀ pr ∈ dist, (0 : Cost) ≤ pr.2.1) :
    (∀ x ∈ (dijkstraBody g e rest dist).heap, (0 : Cost) ≤ x.cost) ∧
      (∀ pr ∈ (dijkstraBody g e rest dist).dist, (0 : Cost) ≤ pr.2.1) := by
  have hexpand :
      (∀ x ∈ ((edgesOf g e.position).foldl (relaxOne e.cost e.node_count) (dist, rest)).2,
          (0 : Cost) ≤ x.cost) ∧
        (∀ pr ∈ ((edgesOf g e.position).foldl (relaxOne e.cost e.node_count) (dist, rest)).1,
          (0 : Cost) ≤ pr.2.1) := by
    have := foldl_preserve (relaxOne e.cost e.node_count)
      (fun acc => (∀ x ∈ acc.2, (0 : Cost) ≤ x.cost) ∧ (∀ pr ∈ acc.1, (0 : Cost) ≤ pr.2.1))
      (edgesOf g e.position) (dist, rest) ⟨hheap, hdist⟩ ?_
    · exact ⟨this.1, this.2⟩
    · intro a ha acc hacc
      obtain ⟨hh, hd⟩ := hacc
      have hw : (0 : Cost) ≤ edgeCost a.trust_score := by
        obtain ⟨es, hmem, haes⟩ := edgesOf_mem g e.position a ha
        exact hg _ hmem a haes
      have hcand : (0 : Cost) ≤ e.cost + edgeCost a.trust_score :=
        add_nonneg he hw
      simp only [relaxOne]
      by_cases hlt : ((lookupA acc.1 a.target).getD (⊤, 0)).1 > e.cost + edgeCost a.trust_score
      · rw [if_pos hlt]
        constructor
        · intro x hx
          rcases List.mem_cons.mp hx with rfl | hx
          · exact hcand
          · exact hh x hx
        · intro pr hpr
          rcases mem_updateA _ _ _ pr hpr with rfl | hpr
          · exact hcand
          · exact hd pr hpr
      · rw [if_neg hlt]
        refine ⟨hh, ?_⟩
        intro pr hpr
        rcases mem_updateA _ _ _ pr hpr with rfl | hpr
        · cases hl : lookupA acc.1 a.target with
          | none => simp [hl]
          | some p =>
            simp only [hl, Option.getD_some]
            exact hd (a.target, p) (lookupA_mem _ _ _ hl)
        · exact hd pr hpr
  cases hl : lookupA dist e.position with
  | none =>
    simp only [dijkstraBody, hl]
    exact ⟨hexpand.1, hexpand.2⟩
  | some d =>
    simp only [dijkstraBody, hl]
    by_cases hc : e.cost > d.1
    · rw [if_pos hc]
      exact ⟨hheap, hdist⟩
    · rw [if_neg hc]
      exact ⟨hexpand.1, hexpand.2⟩

theorem dijkstraLoop_nonneg (g : Graph)
    (hg : ∀ p ∈ g.nodes, ∀ ed ∈ p.2, (0 : Cost) ≤ edgeCost ed.trust_score)
    (fuel : Nat) (s r : DijkstraState)
    (hs : (∀ x ∈ s.heap, (0 : Cost) ≤ x.cost) ∧ (∀ pr ∈ s.dist, (0 : Cost) ≤ pr.2.1))
    (h : dijkstraLoop g fuel s = some r) :
    (∀ x ∈ r.heap, (0 : Cost) ≤ x.cost) ∧ (∀ pr ∈ r.dist, (0 : Cost) ≤ pr.2.1) := by
  refine dijkstraLoop_inv g
    (fun s' => (∀ x ∈ s'.heap, (0 : Cost) ≤ x.cost) ∧ (∀ pr ∈ s'.dist, (0 : Cost) ≤ pr.2.1))
    ?_ fuel s r hs h
  intro s' e rest hP hp
  obtain ⟨hh, hd⟩ := hP
  obtain ⟨hmem, hsub⟩ := popMin_mem _ _ _ hp
  exact dijkstraBody_nonneg g hg e rest s'.dist (hh e hmem)
    (fun x hx => hh x (hsub x hx)) hd

/-- C6: for every graph whose edge ratings all lie in [-10, 10] and every
start actor, every value in the returned mapping is nonnegative, because
every transformed edge cost `1/(rating+11)` is strictly positive there. -/
theorem modified_dijkstra_nonneg (g : Graph) (start_node : Int)
    (hg : ∀ p ∈ g.nodes, ∀ ed ∈ p.2, -10 ≤ ed.trust_score ∧ ed.trust_score ≤ 10)
    (out : List (Int × Cost)) (h : modified_dijkstra g start_node = some out) :
    ∀ pr ∈ out, (0 : Cost) ≤ pr.2 := by
  have hg' : ∀ p ∈ g.nodes, ∀ ed ∈ p.2, (0 : Cost) ≤ edgeCost ed.trust_score := by
    intro p hp ed hed
    obtain ⟨h1, h2⟩ := hg p hp ed hed
    exact le_of_lt (edgeCost_pos_of_range _ h1 h2)
  obtain ⟨s, hs, rfl⟩ := Option.map_eq_some'.mp h
  have hinit : (∀ x ∈ (dijkstraStart start_node).heap, (0 : Cost) ≤ x.cost) ∧
      (∀ pr ∈ (dijkstraStart start_node).dist, (0 : Cost) ≤ pr.2.1) := by
    constructor
    · intro x hx
      simp [dijkstraStart] at hx
      subst hx
      exact le_refl _
    · intro pr hpr
      simp [dijkstraStart] at hpr
      subst hpr
      exact le_refl _
  obtain ⟨-, hdist⟩ := dijkstraLoop_nonneg g hg' _ _ s hinit hs
  intro pr hpr
  simp only [averageScores, List.mem_map] at hpr
  obtain ⟨q, hq, rfl⟩ := hpr
  have hqd := List.mem_filter.mp hq
  have hc : (0 : Cost) ≤ q.2.1 := hdist q hqd.1
  have hk : (0 : Int) < q.2.2 := by
    have := hqd.2
    simpa using this
  cases hcv : q.2.1 with
  | none => exact le_top
  | some qq =>
    have hcoe : ((qq : ℚ) : Cost) = some qq := rfl
    rw [hcv, ← hcoe] at hc
    have hqq : (0 : ℚ) ≤ qq := by
      rw [show ((0 : Cost)) = (((0 : ℚ)) : Cost) from rfl, WithTop.coe_le_coe] at hc
      exact hc
    have hkq : (0 : ℚ) ≤ ((q.2.2 : ℚ)) := by
      have : (0 : ℚ) < ((q.2.2 : ℚ)) := by exact_mod_cast hk
      exact le_of_lt this
    show (0 : Cost) ≤ WithTop.map (fun x => x / ((q.2.2 : ℚ))) (some qq)
    rw [← hcoe, WithTop.map_coe]
    rw [show ((0 : Cost)) = (((0 : ℚ)) : Cost) from rfl, WithTop.coe_le_coe]
    exact div_nonneg hqq hkq

/-- Witness for C6: the test graph has all ratings in [-10, 10], and its
emitted score for actor 1 is nonnegative. -/
theorem modified_dijkstra_nonneg_witness :
    (0 : Cost) ≤ (((1 : Int), ((1/32 : ℚ) : Cost)) : Int × Cost).2 :=
  modified_dijkstra_nonneg create_test_graph 0 (by decide)
    [((0 : Int), (0 : Cost)), (1, ((1/32 : ℚ) : Cost)), (2, ((1/42 : ℚ) : Cost))]
    (by norm_num [modified_dijkstra, dijkstraLoop, dijkstraBody, dijkstraStart, relaxOne,
      popMin, edgesOf, lookupA, updateA, edgeCost, totalEdges, create_test_graph,
      Graph.add_edge, Graph.new, pushEdge, averageScores, costCoeAdd, costCoeLt,
      costCoeLtZero, costZeroLtCoe, costCoeLtTop, costTopNotLtCoe, costZeroAdd])
    (((1 : Int), ((1/32 : ℚ) : Cost)) : Int × Cost) (by simp)

/-!
## The hop-count sentinel
-/

/-- C10 counterexample: on the graph with one edge of rating `-11`, the run
terminates with the `(infinity, 0)` sentinel still recorded for actor 1
(the candidate cost is itself infinite, so the sentinel is never
overwritten), and the final filter drops it: the output's actor set is a
strict subset of the recorded-state actor set. -/
theorem dijkstra_sentinel_counterexample :
    dijkstraLoop ratingElevenGraph (totalEdges ratingElevenGraph + 2) (dijkstraStart 0)
        = some ⟨[(0, ((0 : Cost), 1)), (1, ((⊤ : Cost), 0))], []⟩ ∧
      ¬ ((averageScores [(0, ((0 : Cost), 1)), (1, ((⊤ : Cost), 0))]).map Prod.fst
          = [(0, ((0 : Cost), 1)), (1, ((⊤ : Cost), 0))].map Prod.fst) := by
  constructor
  · decide
  · decide

theorem dijkstraBody_counts (g : Graph)
    (hg : ∀ p ∈ g.nodes, ∀ ed ∈ p.2, ed.trust_score + 11 ≠ 0)
    (e : State) (rest : List State) (dist : List (Int × (Cost × Int)))
    (he : e.cost ≠ ⊤ ∧ 1 ≤ e.node_count)
    (hheap : ∀ x ∈ rest, x.cost ≠ ⊤ ∧ 1 ≤ x.node_count)
    (hdist : ∀ pr ∈ dist, 1 ≤ pr.2.2) :
    (∀ x ∈ (dijkstraBody g e rest dist).heap, x.cost ≠ ⊤ ∧ 1 ≤ x.node_count) ∧
      (∀ pr ∈ (dijkstraBody g e rest dist).dist, 1 ≤ pr.2.2) := by
  have hexpand :
      (∀ x ∈ ((edgesOf g e.position).foldl (relaxOne e.cost e.node_count) (dist, rest)).2,
          x.cost ≠ ⊤ ∧ 1 ≤ x.node_count) ∧
        (∀ pr ∈ ((edgesOf g e.position).foldl (relaxOne e.cost e.node_count) (dist, rest)).1,
          1 ≤ pr.2.2) := by
    have := foldl_preserve (relaxOne e.cost e.node_count)
      (fun acc => (∀ x ∈ acc.2, x.cost ≠ ⊤ ∧ 1 ≤ x.node_count) ∧
        (∀ pr ∈ acc.1, 1 ≤ pr.2.2))
      (edgesOf g e.position) (dist, rest) ⟨hheap, hdist⟩ ?_
    · exact ⟨this.1, this.2⟩
    · intro a ha acc hacc
      obtain ⟨hh, hd⟩ := hacc
      have hw : edgeCost a.trust_score ≠ ⊤ := by
        obtain ⟨es, hmem, haes⟩ := edgesOf_mem g e.position a ha
        have := hg _ hmem a haes
        rw [edgeCost, if_neg this]
        exact WithTop.coe_ne_top
      have hcand : e.cost + edgeCost a.trust_score ≠ ⊤ :=
        WithTop.add_ne_top.mpr ⟨he.1, hw⟩
      simp only [relaxOne]
      by_cases hlt : ((lookupA acc.1 a.target).getD (⊤, 0)).1 > e.cost + edgeCost a.trust_score
      · rw [if_pos hlt]
        constructor
        · intro x hx
          rcases List.mem_cons.mp hx with rfl | hx
          · refine ⟨hcand, ?_⟩
            show 1 ≤ e.node_count + 1
            omega
          · exact hh x hx
        · intro pr hpr
          rcases mem_updateA _ _ _ pr hpr with rfl | hpr
          · show 1 ≤ e.node_count + 1
            omega
          · exact hd pr hpr
      · rw [if_neg hlt]
        refine ⟨hh, ?_⟩
        intro pr hpr
        rcases mem_updateA _ _ _ pr hpr with rfl | hpr
        · cases hl : lookupA acc.1 a.target with
          | none =>
            exfalso
            apply hlt
            rw [hl]
            simp only [Option.getD_none]
            exact lt_top_iff_ne_top.mpr hcand
          | some p =>
            simp only [hl, Option.getD_some]
            exact hd (a.target, p) (lookupA_mem _ _ _ hl)
        · exact hd pr hpr
  cases hl : lookupA dist e.position with
  | none =>
    simp only [dijkstraBody, hl]
    exact ⟨hexpand.1, hexpand.2⟩
  | some d =>
    simp only [dijkstraBody, hl]
    by_cases hc : e.cost > d.1
    · rw [if_pos hc]
      exact ⟨hheap, hdist⟩
    · rw [if_neg hc]
      exact ⟨hexpand.1, hexpand.2⟩

/-- C10 (amended): provided no edge has rating `-11` (zero denominator, as
with ratings in the documented range [-10, 10]), every recorded state at loop
exit has hop count at least 1 — the transient `(infinity, 0)` sentinel is
always overwritten within the same relaxation step — so the final filter
drops nothing and the output's actor list equals the recorded-state actor
list exactly. -/
theorem dijkstra_sentinel_invariant (g : Graph) (start_node : Int)
    (hg : ∀ p ∈ g.nodes, ∀ ed ∈ p.2, ed.trust_score + 11 ≠ 0)
    (fuel : Nat) (r : DijkstraState)
    (h : dijkstraLoop g fuel (dijkstraStart start_node) = some r) :
    (∀ pr ∈ r.dist, 1 ≤ pr.2.2) ∧
      (averageScores r.dist).map Prod.fst = r.dist.map Prod.fst := by
  have hfin : (∀ x ∈ r.heap, x.cost ≠ ⊤ ∧ 1 ≤ x.node_count) ∧
      (∀ pr ∈ r.dist, 1 ≤ pr.2.2) := by
    refine dijkstraLoop_inv g
      (fun s' => (∀ x ∈ s'.heap, x.cost ≠ ⊤ ∧ 1 ≤ x.node_count) ∧
        (∀ pr ∈ s'.dist, 1 ≤ pr.2.2)) ?_ fuel _ r ?_ h
    · intro s' e rest hP hp
      obtain ⟨hh, hd⟩ := hP
      obtain ⟨hmem, hsub⟩ := popMin_mem _ _ _ hp
      exact dijkstraBody_counts g hg e rest s'.dist (hh e hmem)
        (fun x hx => hh x (hsub x hx)) hd
    · constructor
      · intro x hx
        simp [dijkstraStart] at hx
        subst hx
        constructor
        · exact WithTop.coe_ne_top
        · show (1 : Int) ≤ 1
          omega
      · intro pr hpr
        simp [dijkstraStart] at hpr
        subst hpr
        show (1 : Int) ≤ 1
        omega
  refine ⟨hfin.2, ?_⟩
  have hfilter : r.dist.filter (fun p => 0 < p.2.2) = r.dist := by
    rw [List.filter_eq_self]
    intro a ha
    have := hfin.2 a ha
    simp only [decide_eq_true_eq]
    omega
  rw [averageScores, hfilter, List.map_map]
  rfl

/-- Witness for C10's amended statement: a terminating run on the empty
graph. -/
theorem dijkstra_sentinel_invariant_witness :
    (∀ pr ∈ (DijkstraState.mk [((0 : Int), ((0 : Cost), (1 : Int)))] []).dist, 1 ≤ pr.2.2) ∧
      (averageScores (DijkstraState.mk [((0 : Int), ((0 : Cost), (1 : Int)))] []).dist).map Prod.fst
        = (DijkstraState.mk [((0 : Int), ((0 : Cost), (1 : Int)))] []).dist.map Prod.fst :=
  dijkstra_sentinel_invariant Graph.new 0 (by decide) 2
    (DijkstraState.mk [((0 : Int), ((0 : Cost), (1 : Int)))] []) (by decide)

/-!
## Stability of the final state and the start actor's score
-/

theorem popMin_elim (l : List State) (e : State) (r : List State)
    (h : popMin l = some (e, r)) : ∀ x ∈ l, x = e ∨ x ∈ r := by
  induction l generalizing e r with
  | nil => simp [popMin] at h
  | cons a es ih =>
    simp only [popMin] at h
    cases hp : popMin es with
    | none =>
      simp only [hp] at h
      cases h
      obtain rfl : es = [] := (popMin_eq_none es).mp hp
      intro x hx
      simp at hx
      exact Or.inl hx
    | some p =>
      obtain ⟨m, r'⟩ := p
      simp only [hp] at h
      by_cases hc : a.cost ≤ m.cost
      · rw [if_pos hc] at h
        cases h
        intro x hx
        rcases List.mem_cons.mp hx with rfl | hx
        · exact Or.inl rfl
        · exact Or.inr hx
      · rw [if_neg hc] at h
        cases h
        intro x hx
        rcases List.mem_cons.mp hx with rfl | hx
        · exact Or.inr (List.mem_cons_self _ _)
        · rcases ih _ _ hp x hx with h | h
          · exact Or.inl h
          · exact Or.inr (List.mem_cons_of_mem _ h)

theorem distCost_of_lookup (dist : List (Int × (Cost × Int))) (v : Int)
    (c : Cost) (k : Int) (h : lookupA dist v = some (c, k)) :
    distCost dist v = c := by
  simp [distCost, h]

theorem distCost_mono_of_distLe {d' d : List (Int × (Cost × Int))}
    (h : DistLe d' d) (v : Int) : distCost d' v ≤ distCost d v := by
  cases hl : lookupA d v with
  | none => simp [distCost, hl]
  | some p =>
    obtain ⟨c, k⟩ := p
    obtain ⟨c', k', hl', hrel⟩ := h v c k hl
    rw [distCost_of_lookup _ _ _ _ hl, distCost_of_lookup _ _ _ _ hl']
    rcases hrel with h1 | ⟨rfl, -⟩
    · exact le_of_lt h1
    · exact le_refl _

theorem foldl_establish {α β : Type} (f : β → α → β) (Q : β → Prop)
    (R : α → β → Prop) (l : List α) (b : β) (hb : Q b)
    (hQ : ∀ a ∈ l, ∀ x, Q x → Q (f x a))
    (hR : ∀ a ∈ l, ∀ x, Q x → R a (f x a))
    (hRpres : ∀ a ∈ l, ∀ x, R a x → ∀ a' ∈ l, R a (f x a')) :
    Q (l.foldl f b) ∧ ∀ a ∈ l, R a (l.foldl f b) := by
  have main : ∀ (l' : List α) (b' : β), Q b' →
      (∀ a ∈ l', ∀ x, Q x → Q (f x a)) →
      (∀ a ∈ l', ∀ x, Q x → R a (f x a)) →
      (∀ a ∈ l', ∀ x, R a x → ∀ a' ∈ l', R a (f x a')) →
      Q (l'.foldl f b') ∧ ∀ a ∈ l', R a (l'.foldl f b') := by
    intro l'
    induction l' with
    | nil => intro b' hb' _ _ _; exact ⟨hb', by simp⟩
    | cons a t ih =>
      intro b' hb' hQ' hR' hRp'
      have hQa : Q (f b' a) := hQ' a (List.mem_cons_self _ _) b' hb'
      have hRa : R a (f b' a) := hR' a (List.mem_cons_self _ _) b' hb'
      obtain ⟨hq, hr⟩ := ih (f b' a) hQa
        (fun x hx y hy => hQ' x (List.mem_cons_of_mem _ hx) y hy)
        (fun x hx y hy => hR' x (List.mem_cons_of_mem _ hx) y hy)
        (fun x hx y hy a' ha' => hRp' x (List.mem_cons_of_mem _ hx) y hy a'
          (List.mem_cons_of_mem _ ha'))
      refine ⟨hq, ?_⟩
      intro x hx
      rcases List.mem_cons.mp hx with hxa | hx
      · -- R a holds after its own step and is preserved along the tail
        have hkeep : ∀ (t' : List α) (y : β), R a y →
            (∀ a' ∈ t', ∀ z, R a z → R a (f z a')) → R a (t'.foldl f y) := by
          intro t'
          induction t' with
          | nil => intro y hy _; exact hy
          | cons a' t'' ih' =>
            intro y hy hpp
            exact ih' (f y a') (hpp a' (List.mem_cons_self _ _) y hy)
              (fun z hz w hw => hpp z (List.mem_cons_of_mem _ hz) w hw)
        rw [hxa]
        exact hkeep t (f b' a) hRa
          (fun a' ha' z hz => hRp' a (List.mem_cons_self _ _) z hz a'
            (List.mem_cons_of_mem _ ha'))
      · exact hr x hx
  exact main l b hb hQ hR hRpres

theorem dijkstraBody_stab (g : Graph) (start_node : Int) (s : DijkstraState)
    (hS : StabInv g start_node s) (e : State) (rest : List State)
    (hp : popMin s.heap = some (e, rest)) :
    StabInv g start_node (dijkstraBody g e rest s.dist) := by
  obtain ⟨s1, s2, s3, s4, s5⟩ := hS
  obtain ⟨hmem, hsub⟩ := popMin_mem _ _ _ hp
  have helim := popMin_elim _ _ _ hp
  have hw0 : WalkCost g start_node e.position e.cost := s2 e hmem
  have hcnt0 : 1 ≤ e.node_count := s4 e hmem
  have hexpand : e.cost ≤ distCost s.dist e.position → StabInv g start_node
      (DijkstraState.mk
        ((edgesOf g e.position).foldl (relaxOne e.cost e.node_count) (s.dist, rest)).1
        ((edgesOf g e.position).foldl (relaxOne e.cost e.node_count) (s.dist, rest)).2) := by
    intro hle
    have hfold := foldl_establish (relaxOne e.cost e.node_count)
      (fun acc =>
        (∀ v, Stable g acc.1 v ∨
            (∃ x ∈ acc.2, x.position = v ∧ x.cost ≤ distCost acc.1 v) ∨ v = e.position) ∧
          (∀ x ∈ acc.2, WalkCost g start_node x.position x.cost) ∧
          (∀ v c k, lookupA acc.1 v = some (c, k) → k ≠ 0 → WalkCost g start_node v c) ∧
          (∀ x ∈ acc.2, 1 ≤ x.node_count) ∧
          (∃ c k, lookupA acc.1 start_node = some (c, k) ∧ c ≤ 0 ∧ 1 ≤ k) ∧
          (e.cost ≤ distCost acc.1 e.position ∨
            (∃ x ∈ acc.2, x.position = e.position ∧ x.cost ≤ distCost acc.1 e.position)))
      (fun ed acc => distCost acc.1 ed.target ≤ e.cost + edgeCost ed.trust_score)
      (edgesOf g e.position) (s.dist, rest) ?hb ?hq ?hr ?hrp
    case hb =>
      refine ⟨?_, ?_, s3, ?_, s5, Or.inl hle⟩
      · intro v
        rcases s1 v with hstab | ⟨x, hx, hpos, hxc⟩
        · exact Or.inl hstab
        · rcases helim x hx with rfl | hx'
          · exact Or.inr (Or.inr hpos.symm)
          · exact Or.inr (Or.inl ⟨x, hx', hpos, hxc⟩)
      · intro x hx
        exact s2 x (hsub x hx)
      · intro x hx
        exact s4 x (hsub x hx)
    case hq =>
      intro a ha acc hacc
      obtain ⟨q1, q2, q3, q4, q5, q6⟩ := hacc
      have hwa : WalkCost g start_node a.target (e.cost + edgeCost a.trust_score) :=
        WalkCost.step a hw0 ha
      simp only [relaxOne]
      by_cases hlt : ((lookupA acc.1 a.target).getD (⊤, 0)).1 > e.cost + edgeCost a.trust_score
      · rw [if_pos hlt]
        have heqt : distCost (updateA acc.1 a.target
            (e.cost + edgeCost a.trust_score, e.node_count + 1)) a.target
              = e.cost + edgeCost a.trust_score :=
          distCost_of_lookup _ _ _ _ (lookupA_updateA_self _ _ _)
        have hne : ∀ v, v ≠ a.target → distCost (updateA acc.1 a.target
            (e.cost + edgeCost a.trust_score, e.node_count + 1)) v = distCost acc.1 v := by
          intro v hv
          simp [distCost, lookupA_updateA_ne _ _ _ _ hv]
        have hmono : ∀ v, distCost (updateA acc.1 a.target
            (e.cost + edgeCost a.trust_score, e.node_count + 1)) v ≤ distCost acc.1 v := by
          intro v
          by_cases hv : v = a.target
          · subst hv
            rw [heqt]
            cases hl2 : lookupA acc.1 a.target with
            | none => simp [distCost, hl2]
            | some p =>
              rw [distCost_of_lookup _ _ _ _ hl2]
              rw [hl2] at hlt
              exact le_of_lt hlt
          · rw [hne v hv]
        set newE : State :=
          ⟨e.cost + edgeCost a.trust_score, a.target, e.node_count + 1⟩ with hnewE
        refine ⟨?_, ?_, ?_, ?_, ?_, ?_⟩
        · intro v
          by_cases hv : v = a.target
          · subst hv
            refine Or.inr (Or.inl ⟨newE, List.mem_cons_self _ _, rfl, ?_⟩)
            exact le_of_eq heqt.symm
          · rcases q1 v with hstab | ⟨x, hx, hpos, hxc⟩ | hv0
            · refine Or.inl ?_
              intro ed hed
              calc distCost _ ed.target ≤ distCost acc.1 ed.target := hmono ed.target
                _ ≤ distCost acc.1 v + edgeCost ed.trust_score := hstab ed hed
                _ = distCost _ v + edgeCost ed.trust_score := by rw [hne v hv]
            · refine Or.inr (Or.inl ⟨x, List.mem_cons_of_mem _ hx, hpos, ?_⟩)
              rw [hne v hv]
              exact hxc
            · exact Or.inr (Or.inr hv0)
        · intro x hx
          rcases List.mem_cons.mp hx with rfl | hx
          · exact hwa
          · exact q2 x hx
        · intro v c k hlk hk
          by_cases hv : v = a.target
          · subst hv
            rw [lookupA_updateA_self] at hlk
            cases hlk
            exact hwa
          · rw [lookupA_updateA_ne _ _ _ _ hv] at hlk
            exact q3 v c k hlk hk
        · intro x hx
          rcases List.mem_cons.mp hx with rfl | hx
          · show 1 ≤ e.node_count + 1
            omega
          · exact q4 x hx
        · obtain ⟨c, k, hlk, hc0, hk1⟩ := q5
          by_cases hv : start_node = a.target
          · subst hv
            refine ⟨e.cost + edgeCost a.trust_score, e.node_count + 1,
              lookupA_updateA_self _ _ _, ?_, by omega⟩
            rw [hlk] at hlt
            exact le_trans (le_of_lt hlt) hc0
          · exact ⟨c, k, by rw [lookupA_updateA_ne _ _ _ _ hv]; exact hlk, hc0, hk1⟩
        · by_cases hv : e.position = a.target
          · refine Or.inr ⟨newE, List.mem_cons_self _ _, hv.symm, ?_⟩
            rw [hv]
            exact le_of_eq heqt.symm
          · rcases q6 with hcle | ⟨x, hx, hpos, hxc⟩
            · refine Or.inl ?_
              rw [hne _ hv]
              exact hcle
            · refine Or.inr ⟨x, List.mem_cons_of_mem _ hx, hpos, ?_⟩
              rw [hne _ hv]
              exact hxc
      · rw [if_neg hlt]
        cases hl : lookupA acc.1 a.target with
        | some p =>
          simp only [Option.getD_some]
          rw [updateA_lookup_eq _ _ _ hl]
          exact ⟨q1, q2, q3, q4, q5, q6⟩
        | none =>
          simp only [Option.getD_none]
          have hne : ∀ v, distCost (updateA acc.1 a.target ((⊤ : Cost), 0)) v
              = distCost acc.1 v := by
            intro v
            by_cases hv : v = a.target
            · subst hv
              rw [distCost_of_lookup _ _ _ _ (lookupA_updateA_self _ _ _)]
              simp [distCost, hl]
            · simp [distCost, lookupA_updateA_ne _ _ _ _ hv]
          refine ⟨?_, q2, ?_, q4, ?_, ?_⟩
          · intro v
            rcases q1 v with hstab | ⟨x, hx, hpos, hxc⟩ | hv0
            · refine Or.inl ?_
              intro ed hed
              rw [hne ed.target, hne v]
              exact hstab ed hed
            · exact Or.inr (Or.inl ⟨x, hx, hpos, by rw [hne v]; exact hxc⟩)
            · exact Or.inr (Or.inr hv0)
          · intro v c k hlk hk
            by_cases hv : v = a.target
            · subst hv
              rw [lookupA_updateA_self] at hlk
              cases hlk
              exact absurd rfl hk
            · rw [lookupA_updateA_ne _ _ _ _ hv] at hlk
              exact q3 v c k hlk hk
          · obtain ⟨c, k, hlk, hc0, hk1⟩ := q5
            by_cases hv : start_node = a.target
            · rw [hv] at hlk
              rw [hlk] at hl
              cases hl
            · exact ⟨c, k, by rw [lookupA_updateA_ne _ _ _ _ hv]; exact hlk, hc0, hk1⟩
          · rcases q6 with hcle | ⟨x, hx, hpos, hxc⟩
            · exact Or.inl (by rw [hne _]; exact hcle)
            · exact Or.inr ⟨x, hx, hpos, by rw [hne _]; exact hxc⟩
    case hr =>
      intro a ha acc hacc
      simp only [relaxOne]
      by_cases hlt : ((lookupA acc.1 a.target).getD (⊤, 0)).1 > e.cost + edgeCost a.trust_score
      · rw [if_pos hlt]
        rw [distCost_of_lookup _ _ _ _ (lookupA_updateA_self _ _ _)]
      · rw [if_neg hlt]
        cases hl : lookupA acc.1 a.target with
        | some p =>
          simp only [Option.getD_some]
          rw [updateA_lookup_eq _ _ _ hl]
          rw [distCost_of_lookup _ _ _ _ hl]
          rw [hl] at hlt
          simpa using not_lt.mp hlt
        | none =>
          simp only [Option.getD_none]
          rw [distCost_of_lookup _ _ _ _ (lookupA_updateA_self _ _ _)]
          rw [hl] at hlt
          simpa using not_lt.mp hlt
    case hrp =>
      intro a ha x hRx a' ha'
      exact le_trans
        (distCost_mono_of_distLe (relaxOne_distLe e.cost e.node_count x a') a.target) hRx
    obtain ⟨⟨q1, q2, q3, q4, q5, q6⟩, hR⟩ := hfold
    refine ⟨?_, q2, q3, q4, q5⟩
    intro v
    rcases q1 v with hstab | ⟨x, hx, hpos, hxc⟩ | hv0
    · exact Or.inl hstab
    · exact Or.inr ⟨x, hx, hpos, hxc⟩
    · subst hv0
      rcases q6 with hcle | ⟨x, hx, hpos, hxc⟩
      · refine Or.inl ?_
        intro ed hed
        calc distCost _ ed.target ≤ e.cost + edgeCost ed.trust_score := hR ed hed
          _ ≤ distCost _ e.position + edgeCost ed.trust_score := add_le_add_right hcle _
      · exact Or.inr ⟨x, hx, hpos, hxc⟩
  cases hl : lookupA s.dist e.position with
  | none =>
    simp only [dijkstraBody, hl]
    refine hexpand ?_
    simp [distCost, hl]
  | some d =>
    simp only [dijkstraBody, hl]
    by_cases hst : e.cost > d.1
    · rw [if_pos hst]
      refine ⟨?_, ?_, s3, ?_, s5⟩
      · intro v
        rcases s1 v with hstab | ⟨x, hx, hpos, hxc⟩
        · exact Or.inl hstab
        · rcases helim x hx with rfl | hx'
          · exfalso
            rw [← hpos, distCost_of_lookup _ _ _ _ hl] at hxc
            exact absurd hst (not_lt.mpr hxc)
          · exact Or.inr ⟨x, hx', hpos, hxc⟩
      · intro x hx
        exact s2 x (hsub x hx)
      · intro x hx
        exact s4 x (hsub x hx)
    · rw [if_neg hst]
      refine hexpand ?_
      rw [distCost_of_lookup _ _ _ _ hl]
      exact not_lt.mp hst

theorem dijkstraStart_stab (g : Graph) (start_node : Int) :
    StabInv g start_node (dijkstraStart start_node) := by
  refine ⟨?_, ?_, ?_, ?_, ?_⟩
  · intro v
    by_cases hv : v = start_node
    · subst hv
      refine Or.inr ⟨⟨(0 : Cost), v, 1⟩, List.mem_cons_self _ _, rfl, ?_⟩
      show (0 : Cost) ≤ distCost [(v, ((0 : Cost), 1))] v
      rw [distCost_of_lookup [(v, ((0 : Cost), 1))] v (0 : Cost) 1 (by simp [lookupA])]
    · refine Or.inl ?_
      intro ed hed
      have hv' : ¬ (start_node = v) := fun h => hv h.symm
      have htop : distCost (dijkstraStart start_node).dist v = ⊤ := by
        simp [distCost, dijkstraStart, lookupA, hv']
      rw [htop, top_add]
      exact le_top
  · intro x hx
    simp [dijkstraStart] at hx
    subst hx
    exact WalkCost.refl
  · intro v c k hlk hk
    simp only [dijkstraStart, lookupA] at hlk
    by_cases hv : start_node = v
    · rw [if_pos hv] at hlk
      subst hv
      obtain ⟨h1, h2⟩ := Prod.mk.injEq .. ▸ Option.some_inj.mp hlk
      rw [← h1]
      exact WalkCost.refl
    · rw [if_neg hv] at hlk
      cases hlk
  · intro x hx
    simp [dijkstraStart] at hx
    subst hx
    show (1 : Int) ≤ 1
    omega
  · exact ⟨0, 1, by simp [dijkstraStart, lookupA], le_refl _, le_refl _⟩

theorem distCost_le_walk (g : Graph) (d : List (Int × (Cost × Int)))
    (hstab : ∀ v, Stable g d v) (s u : Int) (C : Cost)
    (hw : WalkCost g s u C) : distCost d u ≤ distCost d s + C := by
  induction hw with
  | refl => rw [add_zero]
  | step ed hw hmem ih =>
    calc distCost d ed.target
        ≤ distCost d _ + edgeCost ed.trust_score := hstab _ ed hmem
      _ ≤ (distCost d s + _) + edgeCost ed.trust_score := add_le_add_right ih _
      _ = distCost d s + (_ + edgeCost ed.trust_score) := add_assoc _ _ _

theorem lookupA_averageScores (dist : List (Int × (Cost × Int))) (v : Int)
    (c : Cost) (k : Int) (h : lookupA dist v = some (c, k)) (hk : 0 < k) :
    lookupA (averageScores dist) v
      = some (WithTop.map (fun q => q / ((k : ℚ))) c) := by
  induction dist with
  | nil => simp [lookupA] at h
  | cons hd t ih =>
    obtain ⟨v', pc, pk⟩ := hd
    by_cases hv : v' = v
    · subst hv
      simp only [lookupA, if_pos rfl] at h
      obtain ⟨h1, h2⟩ := Prod.mk.injEq .. ▸ Option.some_inj.mp h
      subst h1
      subst h2
      simp only [averageScores, List.filter_cons]
      rw [if_pos (by simpa using hk)]
      simp [lookupA]
    · simp only [lookupA, if_neg hv] at h
      simp only [averageScores, List.filter_cons]
      by_cases hp : 0 < pk
      · rw [if_pos (by simpa using hp)]
        simp only [List.map_cons, lookupA, if_neg hv]
        simpa [averageScores] using ih h
      · rw [if_neg (by simpa using hp)]
        simpa [averageScores] using ih h

/-- C5: for every graph and start actor, a terminating propagation run
contains an entry for the start actor itself with value exactly 0: the
final stable state, telescoped along the realizing walk of the start
actor's recorded cost, forces that cost back to 0, and the post-pass emits
the ratio 0/hops = 0. -/
theorem modified_dijkstra_start_zero (g : Graph) (start_node : Int)
    (out : List (Int × Cost)) (h : modified_dijkstra g start_node = some out) :
    lookupA out start_node = some (0 : Cost) := by
  obtain ⟨r, hr, rfl⟩ := Option.map_eq_some'.mp h
  have hS : StabInv g start_node r :=
    dijkstraLoop_inv g (StabInv g start_node)
      (fun s' e rest hP hp => dijkstraBody_stab g start_node s' hP e rest hp)
      _ _ r (dijkstraStart_stab g start_node) hr
  have hempty : r.heap = [] := dijkstraLoop_heap_empty g _ _ r hr
  obtain ⟨s1, s2, s3, s4, s5⟩ := hS
  obtain ⟨c, k, hlk, hc0, hk1⟩ := s5
  have hstab : ∀ v, Stable g r.dist v := by
    intro v
    rcases s1 v with hst | ⟨x, hx, -, -⟩
    · exact hst
    · rw [hempty] at hx
      simp at hx
  have hwalk : WalkCost g start_node start_node c := s3 _ _ _ hlk (by omega)
  have htel := distCost_le_walk g r.dist hstab start_node start_node c hwalk
  rw [distCost_of_lookup _ _ _ _ hlk] at htel
  have hczero : c = (0 : Cost) := by
    cases c with
    | none => exact absurd hc0 (WithTop.not_top_le_coe 0)
    | some q =>
      have hco : ((q : ℚ) : Cost) = some q := rfl
      rw [← hco] at htel hc0
      rw [show ((0 : Cost)) = (((0 : ℚ)) : Cost) from rfl] at hc0
      rw [costCoeAdd, WithTop.coe_le_coe] at htel
      rw [WithTop.coe_le_coe] at hc0
      rw [← hco, show ((0 : Cost)) = (((0 : ℚ)) : Cost) from rfl]
      norm_cast
      linarith
  subst hczero
  rw [lookupA_averageScores r.dist start_node _ k hlk (by omega)]
  congr 1
  rw [show ((0 : Cost)) = (((0 : ℚ)) : Cost) from rfl, WithTop.map_coe]
  norm_num

/-- Witness for C5: the concrete run on the test graph contains 0 ↦ 0. -/
theorem modified_dijkstra_start_zero_witness :
    lookupA [((0 : Int), (0 : Cost)), (1, ((1/32 : ℚ) : Cost)), (2, ((1/42 : ℚ) : Cost))] 0
      = some (0 : Cost) :=
  modified_dijkstra_start_zero create_test_graph 0 _ (by
    norm_num [modified_dijkstra, dijkstraLoop, dijkstraBody, dijkstraStart, relaxOne,
      popMin, edgesOf, lookupA, updateA, edgeCost, totalEdges, create_test_graph,
      Graph.add_edge, Graph.new, pushEdge, averageScores, costCoeAdd, costCoeLt,
      costCoeLtZero, costZeroLtCoe, costCoeLtTop, costTopNotLtCoe, costZeroAdd])

/-!
## Termination
-/

theorem negLoop_diverges (fuel : Nat) : ∀ (q : ℚ) (k : Int),
    dijkstraLoop negLoopGraph fuel
      ⟨[(0, ((q : Cost), k))], [⟨(q : Cost), 0, k⟩]⟩ = none := by
  induction fuel with
  | zero =>
    intro q k
    simp [dijkstraLoop]
  | succ n ih =>
    intro q k
    have hec : edgeCost (-12) = (((-1 : ℚ)) : Cost) := by
      rw [edgeCost, if_neg (by decide), WithTop.coe_eq_coe]
      norm_num
    have hbody : dijkstraBody negLoopGraph ⟨(q : Cost), 0, k⟩ []
        [(0, ((q : Cost), k))]
          = ⟨[(0, (((q + -1 : ℚ) : Cost), k + 1))], [⟨((q + -1 : ℚ) : Cost), 0, k + 1⟩]⟩ := by
      have hlk : lookupA [((0 : Int), ((q : Cost), k))] 0 = some ((q : Cost), k) := rfl
      simp only [dijkstraBody, hlk]
      rw [if_neg (lt_irrefl _)]
      rw [show edgesOf negLoopGraph 0 = [⟨0, -12⟩] from rfl]
      simp only [List.foldl_cons, List.foldl_nil, relaxOne, hlk, Option.getD_some,
        hec, costCoeAdd]
      rw [if_pos (by rw [gt_iff_lt, costCoeLt]; linarith)]
      simp [updateA]
    have hpop : popMin [(⟨(q : Cost), 0, k⟩ : State)]
        = some (⟨(q : Cost), 0, k⟩, []) := rfl
    simp only [dijkstraLoop, hpop]
    rw [hbody]
    exact ih (q + -1) (k + 1)

/-- C4 counterexample: on the graph with the single self-loop of rating
`-12` (transformed edge cost `1/(-12+11) = -1`, strictly negative), the
priority-queue loop never empties: no amount of fuel makes the loop return.
The claim's own premise — every edge contributes a strictly positive cost —
fails for this finite graph. -/
theorem dijkstra_nontermination_counterexample :
    ¬ ∃ (fuel : Nat) (r : DijkstraState),
        dijkstraLoop negLoopGraph fuel (dijkstraStart 0) = some r := by
  rintro ⟨fuel, r, hr⟩
  have h0 : dijkstraStart 0
      = ⟨[(0, ((((0 : ℚ)) : Cost), 1))], [⟨(((0 : ℚ)) : Cost), 0, 1⟩]⟩ := rfl
  rw [h0, negLoop_diverges fuel 0 1] at hr
  cases hr

theorem relax_fold_id (cost : Cost) (cnt : Int)
    (dist : List (Int × (Cost × Int))) (rest : List State) (l : List Edge)
    (hstable : ∀ ed ∈ l, ∃ c' k', lookupA dist ed.target = some (c', k') ∧
      c' ≤ cost + edgeCost ed.trust_score) :
    l.foldl (relaxOne cost cnt) (dist, rest) = (dist, rest) := by
  induction l with
  | nil => rfl
  | cons a t ih =>
    obtain ⟨c', k', hl, hle⟩ := hstable a (List.mem_cons_self _ _)
    have hstep : relaxOne cost cnt (dist, rest) a = (dist, rest) := by
      simp only [relaxOne, hl, Option.getD_some]
      rw [if_neg (by simpa using not_lt.mpr hle)]
      rw [updateA_lookup_eq _ _ _ hl]
    rw [List.foldl_cons, hstep]
    exact ih (fun ed hed => hstable ed (List.mem_cons_of_mem _ hed))

theorem relax_fold_heap_len (cost : Cost) (cnt : Int) :
    ∀ (l : List Edge) (acc : List (Int × (Cost × Int)) × List State),
      ((l.foldl (relaxOne cost cnt) acc).2).length ≤ acc.2.length + l.length := by
  intro l
  induction l with
  | nil => intro acc; simp
  | cons a t ih =>
    intro acc
    have hstep : ((relaxOne cost cnt acc a).2).length ≤ acc.2.length + 1 := by
      simp only [relaxOne]
      by_cases hlt : ((lookupA acc.1 a.target).getD (⊤, 0)).1
          > cost + edgeCost a.trust_score
      · rw [if_pos hlt]
        simp
      · rw [if_neg hlt]
        simp
    calc ((List.foldl (relaxOne cost cnt) acc (a :: t)).2).length
        = ((List.foldl (relaxOne cost cnt) (relaxOne cost cnt acc a) t).2).length := by
          rw [List.foldl_cons]
      _ ≤ (relaxOne cost cnt acc a).2.length + t.length := ih _
      _ ≤ (acc.2.length + 1) + t.length := by omega
      _ = acc.2.length + (a :: t).length := by simp [List.length_cons]; omega

theorem edgesOf_eq_nil_of_not_key (g : Graph) (v : Int)
    (h : v ∉ graphKeys g) : edgesOf g v = [] := by
  unfold edgesOf
  cases hl : lookupA g.nodes v with
  | none => rfl
  | some es =>
    exfalso
    apply h
    have := lookupA_mem _ _ _ hl
    simp only [graphKeys, List.mem_toFinset]
    exact List.mem_map_of_mem Prod.fst this

theorem sum_keys_le_totalEdges (g : Graph) :
    ∑ v in graphKeys g, (edgesOf g v).length ≤ totalEdges g := by
  suffices h : ∀ nodes : List (Int × List Edge),
      ∑ v in (nodes.map Prod.fst).toFinset,
        ((lookupA nodes v).getD []).length ≤ (nodes.map (fun p => p.2.length)).sum by
    simpa [graphKeys, edgesOf, totalEdges] using h g.nodes
  intro nodes
  induction nodes with
  | nil => simp
  | cons hd t ih =>
    obtain ⟨k, es⟩ := hd
    simp only [List.map_cons, List.toFinset_cons, List.sum_cons]
    have hsplit : ∑ v in insert k (t.map Prod.fst).toFinset,
        ((lookupA ((k, es) :: t) v).getD []).length
          = ((lookupA ((k, es) :: t) k).getD []).length
            + ∑ v in ((t.map Prod.fst).toFinset).erase k,
              ((lookupA ((k, es) :: t) v).getD []).length := by
      rw [← Finset.add_sum_erase _ _ (Finset.mem_insert_self k _)]
      congr 1
      by_cases hk : k ∈ (t.map Prod.fst).toFinset
      · rw [Finset.insert_eq_self.mpr hk]
      · rw [Finset.erase_insert (by simpa using hk)]
        rw [Finset.erase_eq_of_not_mem (by simpa using hk)]
    rw [hsplit]
    have hhead : ((lookupA ((k, es) :: t) k).getD []).length = es.length := by
      simp [lookupA]
    have htail : ∑ v in ((t.map Prod.fst).toFinset).erase k,
        ((lookupA ((k, es) :: t) v).getD []).length
          = ∑ v in ((t.map Prod.fst).toFinset).erase k,
            ((lookupA t v).getD []).length := by
      refine Finset.sum_congr rfl ?_
      intro v hv
      have hvk : ¬ (k = v) := by
        intro h
        exact (Finset.ne_of_mem_erase hv) h.symm
      simp [lookupA, hvk]
    rw [hhead, htail]
    have : ∑ v in ((t.map Prod.fst).toFinset).erase k,
        ((lookupA t v).getD []).length
          ≤ ∑ v in (t.map Prod.fst).toFinset, ((lookupA t v).getD []).length :=
      Finset.sum_le_sum_of_subset (Finset.erase_subset _ _)
    omega

theorem dijkstra_term_step (g : Graph)
    (hpos : ∀ p ∈ g.nodes, ∀ ed ∈ p.2, (0 : Cost) < edgeCost ed.trust_score)
    (S : Finset Int) (b : Cost) (s : DijkstraState)
    (hInv : TermInv g S b s) (e : State) (rest : List State)
    (hp : popMin s.heap = some (e, rest)) :
    ∃ (S' : Finset Int) (b' : Cost),
      TermInv g S' b' (dijkstraBody g e rest s.dist) ∧
        dijkstraMeasure g S' (dijkstraBody g e rest s.dist)
          < dijkstraMeasure g S s := by
  obtain ⟨t1, t2, t3⟩ := hInv
  obtain ⟨hmem, hsub⟩ := popMin_mem _ _ _ hp
  have hmin := popMin_min _ _ _ hp
  have hlen := popMin_length _ _ _ hp
  have hbe : b ≤ e.cost := t1 e hmem
  obtain ⟨cv, kv, hlkv, hcv⟩ := t2 e hmem
  have hwpos : ∀ ed ∈ edgesOf g e.position, (0 : Cost) < edgeCost ed.trust_score := by
    intro ed hed
    obtain ⟨es, hm, hi⟩ := edgesOf_mem g e.position ed hed
    exact hpos _ hm ed hi
  have hcand_ge : ∀ ed ∈ edgesOf g e.position,
      e.cost ≤ e.cost + edgeCost ed.trust_score :=
    fun ed hed => le_add_of_nonneg_right (le_of_lt (hwpos ed hed))
  simp only [dijkstraBody, hlkv]
  by_cases hst : e.cost > cv
  · rw [if_pos hst]
    refine ⟨S, b, ⟨?_, ?_, ?_⟩, ?_⟩
    · exact fun x hx => t1 x (hsub x hx)
    · exact fun x hx => t2 x (hsub x hx)
    · exact t3
    · simp only [dijkstraMeasure]
      omega
  · rw [if_neg hst]
    have hcveq : cv = e.cost := le_antisymm hcv (not_lt.mp hst)
    by_cases hS : e.position ∈ S
    · obtain ⟨c0, k0, hlk0, hc0b, hstab0⟩ := t3 _ hS
      have hc0 : c0 = cv := by
        rw [hlkv] at hlk0
        exact ((Prod.mk.injEq .. ▸ Option.some_inj.mp hlk0).1).symm
      have hid : (edgesOf g e.position).foldl (relaxOne e.cost e.node_count)
          (s.dist, rest) = (s.dist, rest) := by
        apply relax_fold_id
        intro ed hed
        obtain ⟨c', k', hl', hle'⟩ := hstab0 ed hed
        refine ⟨c', k', hl', ?_⟩
        calc c' ≤ c0 + edgeCost ed.trust_score := hle'
          _ ≤ e.cost + edgeCost ed.trust_score := by
              refine add_le_add_right ?_ _
              rw [hc0, hcveq]
      rw [hid]
      refine ⟨S, e.cost, ⟨?_, ?_, ?_⟩, ?_⟩
      · exact fun x hx => hmin x (hsub x hx)
      · exact fun x hx => t2 x (hsub x hx)
      · intro v hv
        obtain ⟨c1, k1, hl1, hb1, hs1⟩ := t3 v hv
        exact ⟨c1, k1, hl1, le_trans hb1 hbe, hs1⟩
      · simp only [dijkstraMeasure]
        omega
    · have hfold := foldl_establish (relaxOne e.cost e.node_count)
        (fun acc =>
          (∀ x ∈ acc.2, e.cost ≤ x.cost) ∧
            (∀ x ∈ acc.2, ∃ c k, lookupA acc.1 x.position = some (c, k) ∧ c ≤ x.cost) ∧
            (∀ v ∈ S, ∃ c k, lookupA acc.1 v = some (c, k) ∧ c ≤ b ∧
              ∀ ed ∈ edgesOf g v, ∃ c' k', lookupA acc.1 ed.target = some (c', k') ∧
                c' ≤ c + edgeCost ed.trust_score) ∧
            lookupA acc.1 e.position = some (cv, kv))
        (fun ed acc => ∃ c' k', lookupA acc.1 ed.target = some (c', k') ∧
          c' ≤ e.cost + edgeCost ed.trust_score)
        (edgesOf g e.position) (s.dist, rest) ?hb ?hq ?hr ?hrp
      case hb =>
        exact ⟨fun x hx => hmin x (hsub x hx), fun x hx => t2 x (hsub x hx), t3, hlkv⟩
      case hq =>
        intro a ha acc hacc
        obtain ⟨q1, q2, q3, q4⟩ := hacc
        have hcga : e.cost ≤ e.cost + edgeCost a.trust_score := hcand_ge a ha
        simp only [relaxOne]
        by_cases hlt : ((lookupA acc.1 a.target).getD (⊤, 0)).1
            > e.cost + edgeCost a.trust_score
        · rw [if_pos hlt]
          refine ⟨?_, ?_, ?_, ?_⟩
          · intro x hx
            rcases List.mem_cons.mp hx with rfl | hx
            · exact hcga
            · exact q1 x hx
          · intro x hx
            rcases List.mem_cons.mp hx with rfl | hx
            · exact ⟨_, _, lookupA_updateA_self _ _ _, le_refl _⟩
            · obtain ⟨c, k, hlx, hcx⟩ := q2 x hx
              by_cases hxp : x.position = a.target
              · rw [hxp] at hlx
                rw [hlx] at hlt
                simp only [Option.getD_some] at hlt
                refine ⟨_, _, by rw [hxp]; exact lookupA_updateA_self _ _ _, ?_⟩
                exact le_trans (le_of_lt hlt) hcx
              · exact ⟨c, k, by rw [lookupA_updateA_ne _ _ _ _ hxp]; exact hlx, hcx⟩
          · intro v hv
            obtain ⟨c, k, hlv, hcb, hstabv⟩ := q3 v hv
            have hvt : ¬ (v = a.target) := by
              intro h
              rw [h] at hlv
              rw [hlv] at hlt
              simp only [Option.getD_some] at hlt
              exact absurd hlt (not_lt.mpr (le_trans (le_trans hcb hbe) hcga))
            refine ⟨c, k, by rw [lookupA_updateA_ne _ _ _ _ hvt]; exact hlv, hcb, ?_⟩
            intro ed hed
            obtain ⟨c', k', hl', hle'⟩ := hstabv ed hed
            by_cases het : ed.target = a.target
            · rw [het] at hl'
              rw [hl'] at hlt
              simp only [Option.getD_some] at hlt
              refine ⟨_, _, by rw [het]; exact lookupA_updateA_self _ _ _, ?_⟩
              exact le_trans (le_of_lt hlt) hle'
            · exact ⟨c', k', by rw [lookupA_updateA_ne _ _ _ _ het]; exact hl', hle'⟩
          · have hvt : ¬ (e.position = a.target) := by
              intro h
              rw [h] at q4
              rw [q4] at hlt
              simp only [Option.getD_some] at hlt
              exact absurd hlt (not_lt.mpr (by rw [hcveq]; exact hcga))
            rw [lookupA_updateA_ne _ _ _ _ hvt]
            exact q4
        · rw [if_neg hlt]
          cases hl : lookupA acc.1 a.target with
          | some p =>
            simp only [Option.getD_some]
            rw [updateA_lookup_eq _ _ _ hl]
            exact ⟨q1, q2, q3, q4⟩
          | none =>
            simp only [Option.getD_none]
            refine ⟨q1, ?_, ?_, ?_⟩
            · intro x hx
              obtain ⟨c, k, hlx, hcx⟩ := q2 x hx
              have hxp : ¬ (x.position = a.target) := by
                intro h
                rw [h, hl] at hlx
                cases hlx
              exact ⟨c, k, by rw [lookupA_updateA_ne _ _ _ _ hxp]; exact hlx, hcx⟩
            · intro v hv
              obtain ⟨c, k, hlv, hcb, hstabv⟩ := q3 v hv
              have hvt : ¬ (v = a.target) := by
                intro h
                rw [h, hl] at hlv
                cases hlv
              refine ⟨c, k, by rw [lookupA_updateA_ne _ _ _ _ hvt]; exact hlv, hcb, ?_⟩
              intro ed hed
              obtain ⟨c', k', hl', hle'⟩ := hstabv ed hed
              have het : ¬ (ed.target = a.target) := by
                intro h
                rw [h, hl] at hl'
                cases hl'
              exact ⟨c', k', by rw [lookupA_updateA_ne _ _ _ _ het]; exact hl', hle'⟩
            · have hvt : ¬ (e.position = a.target) := by
                intro h
                rw [h, hl] at q4
                cases q4
              rw [lookupA_updateA_ne _ _ _ _ hvt]
              exact q4
      case hr =>
        intro a ha acc hacc
        simp only [relaxOne]
        by_cases hlt : ((lookupA acc.1 a.target).getD (⊤, 0)).1
            > e.cost + edgeCost a.trust_score
        · rw [if_pos hlt]
          exact ⟨_, _, lookupA_updateA_self _ _ _, le_refl _⟩
        · rw [if_neg hlt]
          cases hl : lookupA acc.1 a.target with
          | some p =>
            simp only [Option.getD_some]
            rw [updateA_lookup_eq _ _ _ hl]
            rw [hl] at hlt
            simp only [Option.getD_some] at hlt
            exact ⟨p.1, p.2, hl, not_lt.mp hlt⟩
          | none =>
            simp only [Option.getD_none]
            rw [hl] at hlt
            simp only [Option.getD_none] at hlt
            exact ⟨⊤, 0, lookupA_updateA_self _ _ _, not_lt.mp hlt⟩
      case hrp =>
        intro a ha x hRx a' ha'
        obtain ⟨c', k', hl', hle'⟩ := hRx
        obtain ⟨c'', k'', hl'', hrel⟩ :=
          relaxOne_distLe e.cost e.node_count x a' a.target c' k' hl'
        refine ⟨c'', k'', hl'', le_trans ?_ hle'⟩
        rcases hrel with h | ⟨rfl, -⟩
        · exact le_of_lt h
        · exact le_refl _
      obtain ⟨⟨f1, f2, f3, f4⟩, hR⟩ := hfold
      have hlen2 : ((List.foldl (relaxOne e.cost e.node_count) (s.dist, rest)
          (edgesOf g e.position)).2).length
            ≤ rest.length + (edgesOf g e.position).length := by
        simpa using relax_fold_heap_len e.cost e.node_count
          (edgesOf g e.position) (s.dist, rest)
      refine ⟨insert e.position S, e.cost, ⟨f1, f2, ?_⟩, ?_⟩
      · intro v hv
        rcases Finset.mem_insert.mp hv with rfl | hv
        · refine ⟨cv, kv, f4, le_of_eq hcveq, ?_⟩
          intro ed hed
          obtain ⟨c', k', hl', hle'⟩ := hR ed hed
          refine ⟨c', k', hl', ?_⟩
          rw [hcveq]
          exact hle'
        · obtain ⟨c, k, hl1, hb1, hs1⟩ := f3 v hv
          exact ⟨c, k, hl1, le_trans hb1 hbe, hs1⟩
      · by_cases hkey : e.position ∈ graphKeys g
        · have hmemdiff : e.position ∈ graphKeys g \ S :=
            Finset.mem_sdiff.mpr ⟨hkey, hS⟩
          have hsdiff : graphKeys g \ insert e.position S
              = (graphKeys g \ S).erase e.position := by
            ext x
            simp only [Finset.mem_sdiff, Finset.mem_erase, Finset.mem_insert]
            tauto
          have hsum : (edgesOf g e.position).length
              + ∑ v in (graphKeys g \ S).erase e.position, (edgesOf g v).length
              = ∑ v in graphKeys g \ S, (edgesOf g v).length :=
            Finset.add_sum_erase _ (fun v => (edgesOf g v).length) hmemdiff
          simp only [dijkstraMeasure, hsdiff]
          omega
        · have hnil : edgesOf g e.position = [] :=
            edgesOf_eq_nil_of_not_key g _ hkey
          have hsdiff : graphKeys g \ insert e.position S = graphKeys g \ S := by
            ext x
            simp only [Finset.mem_sdiff, Finset.mem_insert]
            constructor
            · rintro ⟨h1, h2⟩
              exact ⟨h1, fun h => h2 (Or.inr h)⟩
            · rintro ⟨h1, h2⟩
              refine ⟨h1, ?_⟩
              rintro (rfl | h)
              · exact hkey h1
              · exact h2 h
          rw [hnil] at hlen2
          simp only [List.length_nil] at hlen2
          simp only [dijkstraMeasure, hsdiff, hnil]
          omega

theorem dijkstraLoop_terminates_aux (g : Graph)
    (hpos : ∀ p ∈ g.nodes, ∀ ed ∈ p.2, (0 : Cost) < edgeCost ed.trust_score) :
    ∀ (n : Nat) (S : Finset Int) (b : Cost) (s : DijkstraState),
      TermInv g S b s → dijkstraMeasure g S s ≤ n →
      ∃ r, dijkstraLoop g (n + 1) s = some r := by
  intro n
  induction n using Nat.strong_induction_on with
  | _ n ih =>
    intro S b s hInv hm
    cases hp : popMin s.heap with
    | none =>
      refine ⟨s, ?_⟩
      rw [show n + 1 = Nat.succ n from rfl]
      simp [dijkstraLoop, hp]
    | some p =>
      obtain ⟨e, rest⟩ := p
      obtain ⟨S', b', hInv', hlt⟩ := dijkstra_term_step g hpos S b s hInv e rest hp
      have hheap : s.heap ≠ [] := by
        intro h
        rw [h] at hp
        simp [popMin] at hp
      have h1 : 1 ≤ dijkstraMeasure g S s := by
        have : 0 < s.heap.length := List.length_pos.mpr hheap
        simp only [dijkstraMeasure]
        omega
      have hn1 : 1 ≤ n := le_trans h1 hm
      obtain ⟨r, hr⟩ := ih (n - 1) (by omega) S' b'
        (dijkstraBody g e rest s.dist) hInv' (by omega)
      refine ⟨r, ?_⟩
      rw [show n + 1 = Nat.succ n from rfl]
      simp only [dijkstraLoop, hp]
      rw [show n = (n - 1) + 1 by omega]
      exact hr

/-- C4 (amended): for every finite graph in which every edge contributes a
strictly positive transformed cost (as the claim's own premise states, and
as holds for ratings in the documented [-10, 10] range), the priority-queue
loop terminates within `totalEdges + 2` iterations and the heap empties: at
most one push per edge plus the seed entry, an argument made precise by the
settled-set invariant `TermInv` and the measure `dijkstraMeasure`. -/
theorem modified_dijkstra_terminates (g : Graph) (start_node : Int)
    (hpos : ∀ p ∈ g.nodes, ∀ ed ∈ p.2, (0 : Cost) < edgeCost ed.trust_score) :
    ∃ r, dijkstraLoop g (totalEdges g + 2) (dijkstraStart start_node) = some r ∧
      r.heap = [] := by
  have hInv : TermInv g ∅ (0 : Cost) (dijkstraStart start_node) := by
    refine ⟨?_, ?_, ?_⟩
    · intro x hx
      simp [dijkstraStart] at hx
      subst hx
      exact le_refl _
    · intro x hx
      simp [dijkstraStart] at hx
      subst hx
      exact ⟨0, 1, by simp [dijkstraStart, lookupA], le_refl _⟩
    · intro v hv
      simp at hv
  have hm : dijkstraMeasure g ∅ (dijkstraStart start_node) ≤ totalEdges g + 1 := by
    have hsum := sum_keys_le_totalEdges g
    simp only [dijkstraMeasure, dijkstraStart, Finset.sdiff_empty, List.length_cons,
      List.length_nil]
    omega
  obtain ⟨r, hr⟩ := dijkstraLoop_terminates_aux g hpos (totalEdges g + 1) ∅ 0 _ hInv hm
  have hr2 : dijkstraLoop g (totalEdges g + 2) (dijkstraStart start_node) = some r := by
    rw [show totalEdges g + 2 = (totalEdges g + 1) + 1 from rfl]
    exact hr
  exact ⟨r, hr2, dijkstraLoop_heap_empty g _ _ r hr2⟩

/-- Witness for C4's amended statement: the test graph's ratings lie in
[-10, 10], so its edge costs are strictly positive and the run terminates. -/
theorem modified_dijkstra_terminates_witness :
    ∃ r, dijkstraLoop create_test_graph (totalEdges create_test_graph + 2)
        (dijkstraStart 0) = some r ∧ r.heap = [] :=
  modified_dijkstra_terminates create_test_graph 0 (by
    intro p hp ed hed
    have hrange := (by decide :
      ∀ p ∈ create_test_graph.nodes, ∀ ed ∈ p.2,
        -10 ≤ ed.trust_score ∧ ed.trust_score ≤ 10) p hp ed hed
    exact edgeCost_pos_of_range _ hrange.1 hrange.2)
